import Mathlib

/-!
Verification of the pstack snapshot (core-file) reader and DWARF unit layer.

The definitions below are a shallow embedding of the C++ sources:
  * `readFromHdr`, `readStep`, `readLoop`, `coreReaderRead` embed
    `readFromHdr` and `CoreReader::read` from dead.cc;
  * `replayFileNote` embeds the NT_FILE replay loop of
    `CoreProcess::loadSharedObjectsFromFileNote` from dead.cc;
  * `getRegs` / `getPID` embed `CoreProcess::getRegs` / `CoreProcess::getPID`;
  * `offsetToRawDIE` embeds `Unit::offsetToRawDIE` from dwarf_unit.cc;
  * `mkUnit` embeds the `Unit::Unit` header parse from dwarf_unit.cc;
  * `sourceFromAddr` embeds `Unit::sourceFromAddr` from dwarf_unit.cc.
Machine integers (Elf::Off, size_t, uintptr_t) are modelled as `Nat`; where
the C++ relies on 64-bit wraparound the embedding applies an explicit
`% 2 ^ 64` (see `sub64` / `add64`).  Fallible code is `Except String`.
-/

/-- Program header of a loadable segment: `{p_vaddr, p_offset, p_filesz, p_memsz}`. -/
structure Phdr where
  p_vaddr : Nat
  p_offset : Nat
  p_filesz : Nat
  p_memsz : Nat
  deriving DecidableEq, Repr

/-- Random-access byte source: `readAt off n` returns the bytes obtained for a
read of `n` bytes at offset `off`; a result shorter than `n` is a short read. -/
structure ByteReader where
  readAt : Nat → Nat → List Nat

/-- Reader backed by a total byte content `d`: every read is satisfied in full,
byte `i` of the backing store being `d i`. -/
def sliceReader (d : Nat → Nat) : ByteReader :=
  ⟨fun off n => (List.range n).map (fun i => d (off + i))⟩

/-- An ELF object: its byte source and its loadable segments. -/
structure ElfObject where
  io : ByteReader
  segments : List Phdr

/-- Does segment `h` contain address `addr`, i.e. `addr ∈ [p_vaddr, p_vaddr + p_memsz)`. -/
def segContains (h : Phdr) (addr : Nat) : Bool :=
  decide (h.p_vaddr ≤ addr ∧ addr < h.p_vaddr + h.p_memsz)

/-- Modelled from the spec: `Elf::Object::getSegmentForAddress` is not under
src/ (it lives in the ELF library layer).  Per the spec, it returns the
loadable segment whose `[vaddr, vaddr + mem_size)` contains `addr`, or none;
if several overlap, the one with smallest `vaddr` wins. -/
def getSegmentForAddress (obj : ElfObject) (addr : Nat) : Option Phdr :=
  (obj.segments.filter (fun h => segContains h addr)).foldl
    (fun acc h => match acc with
      | none => some h
      | some b => if h.p_vaddr < b.p_vaddr then some h else some b)
    none

/-- A loaded object binding: `{load_bias, object}`. -/
structure LoadedObject where
  loadBias : Nat
  obj : ElfObject

/-- Modelled from the spec: `Process::findSegment` is not under src/.  Per the
spec, it iterates the loaded-object set and returns the first
`(load_bias, object, segment)` whose translated range contains `addr`. -/
def findSegment (loaded : List LoadedObject) (addr : Nat) :
    Option (Nat × ElfObject × Phdr) :=
  match loaded with
  | [] => none
  | lo :: rest =>
    match lo.obj.segments.find?
        (fun h => decide (lo.loadBias + h.p_vaddr ≤ addr ∧
                          addr < lo.loadBias + h.p_vaddr + h.p_memsz)) with
    | some h => some (lo.loadBias, lo.obj, h)
    | none => findSegment rest addr

/-- Embedding of `readFromHdr` (dead.cc).  `addr` is the (object-local)
address, `size` the remaining request, `toClear` the incoming `*toClear`.
Returns the bytes actually copied from the file portion together with the
updated `*toClear`; a short read from the underlying reader is the fatal
"snapshot truncated" error.  All call sites pass a segment containing `addr`,
so `addr - hdr.p_vaddr` never underflows and `Nat` subtraction agrees with the
C++ `u64` arithmetic. -/
def readFromHdr (obj : ElfObject) (hdr : Phdr) (addr size toClear : Nat) :
    Except String (List Nat × Nat) :=
  let off := addr - hdr.p_vaddr
  if off < hdr.p_filesz then
    let fileSize := min (hdr.p_filesz - off) size
    let bytes := obj.io.readAt (hdr.p_offset + off) fileSize
    if bytes.length ≠ fileSize then
      .error "unexpected short read in core file"
    else
      let rv := bytes.length
      let off2 := off + rv
      let size2 := size - rv
      .ok (bytes, max (toClear - rv)
        (if size2 ≠ 0 ∧ off2 < hdr.p_memsz then min size2 (hdr.p_memsz - off2) else 0))
  else
    .ok ([], max toClear
      (if size ≠ 0 ∧ off < hdr.p_memsz then min size (hdr.p_memsz - off) else 0))

/-- Trace record for one iteration of the `CoreReader::read` loop:
whether a snapshot segment covered the cursor, how many real bytes and how
much zero-fill the snapshot step produced, and whether the iteration reached
the `findSegment` consultation of the loaded-object set. -/
structure IterStep where
  snapHit : Bool
  snapBytes : Nat
  snapZeroes : Nat
  consulted : Bool
  deriving DecidableEq, Repr

/-- Outcome of one iteration of the `while` body of `CoreReader::read`. -/
inductive StepOut where
  | fatal (msg : String)
  | stop (bytes : List Nat) (log : IterStep)
  | next (bytes : List Nat) (addr size : Nat) (log : IterStep)
  deriving Repr

/-- Fall-through part of one iteration of `CoreReader::read` (dead.cc), after
the snapshot step: consult `findSegment`, read from a loaded object if one
covers the cursor, then emit the pending zeroes and apply the
`hdr == nullptr && zeroes == 0` break test.  `bytes1`/`zeroes1` are the real
bytes and pending zero-fill the snapshot step produced. -/
def readStepTail (loaded : List LoadedObject) (bytes1 : List Nat)
    (zeroes1 addr1 size1 : Nat) (hit : Bool) : StepOut :=
  match findSegment loaded addr1 with
  | some (loadAddr, obj, hdr) =>
    match readFromHdr obj hdr (addr1 - loadAddr) size1 zeroes1 with
    | .error e => .fatal e
    | .ok (bytes2, zeroes2) =>
      .next (bytes1 ++ bytes2 ++ List.replicate zeroes2 0)
        (addr1 + bytes2.length + zeroes2) (size1 - bytes2.length - zeroes2)
        ⟨hit, bytes1.length, zeroes1, true⟩
  | none =>
    if zeroes1 = 0 then .stop bytes1 ⟨hit, bytes1.length, zeroes1, true⟩
    else .next (bytes1 ++ List.replicate zeroes1 0) (addr1 + zeroes1)
      (size1 - zeroes1) ⟨hit, bytes1.length, zeroes1, true⟩

/-- One iteration of the `while (size != 0)` body of `CoreReader::read`
(dead.cc): the snapshot step (with its `continue` when it supplied real bytes
and no zero-fill is pending), then the fall-through `readStepTail`. -/
def readStep (core? : Option ElfObject) (loaded : List LoadedObject)
    (remoteAddr size : Nat) : StepOut :=
  match core? with
  | some core =>
    match getSegmentForAddress core remoteAddr with
    | some hdr =>
      match readFromHdr core hdr remoteAddr size 0 with
      | .error e => .fatal e
      | .ok (bytes1, zeroes1) =>
        if bytes1.length ≠ 0 ∧ zeroes1 = 0 then
          .next bytes1 (remoteAddr + bytes1.length) (size - bytes1.length)
            ⟨true, bytes1.length, zeroes1, false⟩
        else readStepTail loaded bytes1 zeroes1 (remoteAddr + bytes1.length)
          (size - bytes1.length) true
    | none => readStepTail loaded [] 0 remoteAddr size false
  | none => readStepTail loaded [] 0 remoteAddr size false

/-- The `while (size != 0)` loop of `CoreReader::read`, driven by fuel.
Every non-terminal iteration strictly decreases `size` (each segment found
covers the cursor, so it contributes at least one byte or one zero), hence
fuel `size + 1` replays the C++ loop exactly; see `coreReaderRead`. -/
def readLoop (core? : Option ElfObject) (loaded : List LoadedObject) :
    Nat → Nat → Nat → Except String (List Nat × List IterStep)
  | 0, _, _ => .ok ([], [])
  | fuel + 1, remoteAddr, size =>
    if size = 0 then .ok ([], [])
    else
      match readStep core? loaded remoteAddr size with
      | .fatal e => .error e
      | .stop bs log => .ok (bs, [log])
      | .next bs a s log =>
        match readLoop core? loaded fuel a s with
        | .error e => .error e
        | .ok (bs2, logs) => .ok (bs ++ bs2, log :: logs)

/-- Embedding of `CoreReader::read` (dead.cc): the bytes written to `dst`
(the returned count is their length). -/
def coreReaderRead (core? : Option ElfObject) (loaded : List LoadedObject)
    (addr size : Nat) : Except String (List Nat) :=
  (readLoop core? loaded (size + 1) addr size).map (·.1)

/-- Per-iteration trace of the same run of `CoreReader::read`. -/
def coreReaderTrace (core? : Option ElfObject) (loaded : List LoadedObject)
    (addr size : Nat) : Except String (List IterStep) :=
  (readLoop core? loaded (size + 1) addr size).map (·.2)

/-- Size accounting for one loop iteration: the bytes it emits plus the
remaining request never exceed the request it started with. -/
def stepOk (size : Nat) : StepOut → Prop
  | .fatal _ => True
  | .stop bs _ => bs.length ≤ size
  | .next bs _ s _ => bs.length + s ≤ size

/-- The consultation discipline one iteration's log obeys: `findSegment` was
reached exactly when the snapshot step contributed no real bytes or left
zero-fill pending. -/
def logOk (e : IterStep) : Prop :=
  e.consulted = true ↔ (e.snapBytes = 0 ∨ e.snapZeroes ≠ 0)

/-- All logs in a step outcome obey `logOk`. -/
def stepLogsOk : StepOut → Prop
  | .fatal _ => True
  | .stop _ log => logOk log
  | .next _ _ _ log => logOk log

/-- A byte reader that always supplies exactly the requested number of bytes. -/
def ByteReader.exact (r : ByteReader) : Prop :=
  ∀ off n, (r.readAt off n).length = n

/-- Snapshot of scenario S1: one PT_LOAD at `vaddr = 0x400000` with
`file_size = 0x1000`, `mem_size = 0x2000`, backed by bytes `0x00..0xFF`
repeating. -/
def coreS1 : ElfObject :=
  ⟨sliceReader (fun i => i % 256), [⟨0x400000, 0, 0x1000, 0x2000⟩]⟩

/-- Snapshot whose only segment is pure zero-fill (`file_size = 0`,
`mem_size = 0x1000`) at address 0. -/
def cxCore : ElfObject := ⟨sliceReader (fun _ => 0), [⟨0, 0, 0, 0x1000⟩]⟩

/-- A loaded object mapped at bias 0 whose segment fully overlaps `cxCore`'s
zero-fill region and is backed by bytes 171. -/
def cxObj : LoadedObject := ⟨0, ⟨sliceReader (fun _ => 171), [⟨0, 0, 0x1000, 0x1000⟩]⟩⟩

/-- Lookup in the `allEntries` map of a unit (offset keyed; the stored value
models the `shared_ptr<DIE::Raw>`, `none` being the null pointer). -/
def findEntry (k : Nat) : List (Nat × Option Nat) → Option (Option Nat)
  | [] => none
  | (k2, v) :: rest => if k2 = k then some v else findEntry k rest

/-- Store (insert or overwrite) in the `allEntries` map. -/
def setEntry (k : Nat) (v : Option Nat) : List (Nat × Option Nat) → List (Nat × Option Nat)
  | [] => [(k, v)]
  | (k2, v2) :: rest => if k2 = k then (k2, v) :: rest else (k2, v2) :: setEntry k v rest

/-- The part of `Dwarf::Unit` that `offsetToRawDIE` touches: the unit's
section-offset bounds and the sparse `allEntries` cache.  `decodeCount`
instruments how many times `DIE::decode` has been invoked. -/
structure UnitDieState where
  offset : Nat
  end_ : Nat
  allEntries : List (Nat × Option Nat)
  decodeCount : Nat
  deriving DecidableEq, Repr

/-- Embedding of `Unit::offsetToRawDIE` (dwarf_unit.cc).  `decode` models
`DIE::decode(this, parent, offset)` for the fixed parent of the call, `none`
being a null result.  `allEntries[offset]` default-inserts a null pointer, and
the `if (rawptr == nullptr)` test then runs the decoder — including when the
slot was already occupied by null from an earlier failed decode. -/
def offsetToRawDIE (decode : Nat → Option Nat) (u : UnitDieState) (offset : Nat) :
    Option Nat × UnitDieState :=
  if offset = 0 ∨ offset < u.offset ∨ offset ≥ u.end_ then (none, u)
  else
    match findEntry offset u.allEntries with
    | some (some raw) => (some raw, u)
    | some none =>
      (decode offset, { u with allEntries := setEntry offset (decode offset) u.allEntries,
                               decodeCount := u.decodeCount + 1 })
    | none =>
      (decode offset, { u with allEntries := setEntry offset (decode offset) u.allEntries,
                               decodeCount := u.decodeCount + 1 })

/-- The ELF note type NT_PRSTATUS. -/
def NT_PRSTATUS : Nat := 1

/-- Decoded `prstatus_t` fields used by the code; `pr_reg` abstracts the
register file copied out by `memcpy`. -/
structure PrStatus where
  pr_pid : Int
  pr_cursig : Int
  pr_reg : Nat
  deriving DecidableEq, Repr

/-- A core note: its name, type, and the `prstatus_t` view of its payload
(`note.data()->readObj<prstatus_t>(0)`; meaningful when the note is a
PRSTATUS note). -/
structure Note where
  name : String
  ntype : Nat
  prst : PrStatus
  deriving DecidableEq, Repr

/-- Embedding of `CoreProcess::getRegs` (dead.cc): scan the snapshot's notes
for a CORE/PRSTATUS note whose `pr_pid` matches; `some pr_reg` models the
successful `memcpy` + `return true`, `none` models `return false`
(the NoSuchLwp failure). -/
def getRegs (notes : List Note) (pid : Int) : Option Nat :=
  match notes with
  | [] => none
  | n :: rest =>
    if n.name = "CORE" ∧ n.ntype = NT_PRSTATUS ∧ n.prst.pr_pid = pid then some n.prst.pr_reg
    else getRegs rest pid

/-- Embedding of `CoreProcess::getPID` (dead.cc): the `pr_pid` of the first
CORE/PRSTATUS note, or -1 if none exists. -/
def getPID (notes : List Note) : Int :=
  match notes with
  | [] => -1
  | n :: rest =>
    if n.name = "CORE" ∧ n.ntype = NT_PRSTATUS then n.prst.pr_pid else getPID rest

/-- The S3 snapshot: one PRSTATUS note with `pr_pid = 1234`,
`pr_cursig = 11` (its register file abstracted as the value 7). -/
def s3notes : List Note := [⟨"CORE", NT_PRSTATUS, ⟨1234, 11, 7⟩⟩]

/-- Modulus of the 64-bit `Elf::Off` / `uintptr_t` arithmetic of the
FILE-note replay. -/
def W64 : Nat := 2 ^ 64

/-- Wrapping 64-bit subtraction (`entry.end - entry.start` on u64). -/
def sub64 (a b : Nat) : Nat := (a + (W64 - b % W64)) % W64

/-- Wrapping 64-bit addition (`totalSize += size` on uintptr_t). -/
def add64 (a b : Nat) : Nat := (a + b) % W64

/-- One decoded entry of the NT_FILE note table. -/
structure FileEntry where
  start : Nat
  end_ : Nat
  fileOff : Nat
  deriving DecidableEq, Repr

/-- Embedding of `fileNames->readString(stroff)`: the NUL-terminated string
at offset `off` in the note's string region. -/
def readString (bytes : List Nat) (off : Nat) : List Nat :=
  (bytes.drop off).takeWhile (fun b => b ≠ 0)

/-- State threaded through the FILE-note replay loop: the string cursor
`stroff`, the accumulated `totalSize`, and (as observations of the loop's
effects) the names read, the load attempts `(name, start)` made for
entries with `fileOff = 0`, and the attempts that succeeded. -/
structure FNState where
  stroff : Nat
  totalSize : Nat
  names : List (List Nat)
  attempts : List (List Nat × Nat)
  loads : List (List Nat × Nat)
  deriving DecidableEq, Repr

/-- One iteration of the `for (auto entry : ReaderArray<FileEntry>(*entries))`
loop of `CoreProcess::loadSharedObjectsFromFileNote` (dead.cc).  `tryLoad`
models `addElfObject(imageCache.getImageForName(name), entry.start)`
succeeding or throwing; a throw is swallowed by the `catch (...)`. -/
def fileNoteStep (fileNames : List Nat) (tryLoad : List Nat → Nat → Bool)
    (st : FNState) (e : FileEntry) : FNState :=
  let name := readString fileNames st.stroff
  { stroff := st.stroff + name.length + 1
    totalSize := add64 st.totalSize (sub64 e.end_ e.start)
    names := st.names ++ [name]
    attempts := st.attempts ++ (if e.fileOff = 0 then [(name, e.start)] else [])
    loads := st.loads ++
      (if e.fileOff = 0 ∧ tryLoad name e.start then [(name, e.start)] else []) }

/-- Embedding of the FILE-note replay of
`CoreProcess::loadSharedObjectsFromFileNote` (dead.cc) over one NT_FILE note:
`entries` is the decoded entry table (the entries view supplies exactly
`header.count` records) and `fileNames` the byte region holding the
NUL-terminated paths. -/
def replayFileNote (entries : List FileEntry) (fileNames : List Nat)
    (tryLoad : List Nat → Nat → Bool) : FNState :=
  entries.foldl (fileNoteStep fileNames tryLoad) ⟨0, 0, [], [], []⟩

/-- Reference reading of `n` consecutive NUL-terminated strings from the
front of a byte region. -/
def consumeStrings (bytes : List Nat) : Nat → List (List Nat)
  | 0 => []
  | n + 1 =>
    (bytes.takeWhile (fun b => b ≠ 0))
      :: consumeStrings (bytes.drop ((bytes.takeWhile (fun b => b ≠ 0)).length + 1)) n

/-- The load attempts the replay makes: one per entry with `fileOff = 0`,
pairing the entry's path string with its `start` (the load bias). -/
def attemptsSpec (entries : List FileEntry) (ns : List (List Nat)) :
    List (List Nat × Nat) :=
  (entries.zip ns).filterMap
    (fun p => if p.1.fileOff = 0 then some (p.2, p.1.start) else none)

/-- FILE-note test data: two entries (both mapping a file header page,
`fileOff = 0`), whose paths are "ab" and "cd". -/
def fnEntries : List FileEntry := [⟨0x7f0000000000, 0x7f0000001000, 0⟩, ⟨0x1000, 0x2000, 0⟩]

def fnNames : List Nat := [97, 98, 0, 99, 100, 0]

/-- Image-cache oracle that loads "ab" and fails on every other path. -/
def fnTryLoad : List Nat → Nat → Bool := fun n _ => decide (n = [97, 98])

/-- Byte-stream reader positioned in a debug-info section (`DWARFReader`):
the section's byte content (as a total function), the cursor, and the
configured address size. -/
structure DWARFReader where
  bytes : Nat → Nat
  off : Nat
  addrLen : Nat

/-- Byte value at position `i` (masked to 8 bits). -/
def byteAt (b : Nat → Nat) (i : Nat) : Nat := b i % 256

/-- Little-endian unsigned integer of `n` bytes at position `p`. -/
def uintLE (b : Nat → Nat) (p n : Nat) : Nat :=
  (List.range n).foldr (fun i acc => acc * 256 + byteAt b (p + i)) 0

def getu8 (r : DWARFReader) : Nat × DWARFReader :=
  (byteAt r.bytes r.off, { r with off := r.off + 1 })

def getuint (n : Nat) (r : DWARFReader) : Nat × DWARFReader :=
  (uintLE r.bytes r.off n, { r with off := r.off + n })

def getu16 (r : DWARFReader) : Nat × DWARFReader := getuint 2 r

def getBytes (n : Nat) (r : DWARFReader) : List Nat × DWARFReader :=
  ((List.range n).map (fun i => byteAt r.bytes (r.off + i)), { r with off := r.off + n })

/-- Modelled from the spec: `DWARFReader::getlength` is not under src/.  Per
the spec the unit length opens with a width discriminator of 4 or 12 bytes:
a first 4-byte value, the DWARF64 escape 0xffffffff selecting width 8 with
an 8-byte length following, any other value being a width-4 length itself.
Returns (length, dwarf_len, advanced reader). -/
def getlength (r : DWARFReader) : Nat × Nat × DWARFReader :=
  let v := uintLE r.bytes r.off 4
  if v = 0xffffffff then
    (uintLE r.bytes (r.off + 4) 8, 8, { r with off := r.off + 12 })
  else (v, 4, { r with off := r.off + 4 })

/-- Parsed compilation-unit header (the fields `Unit::Unit` fills in). -/
structure UnitHdr where
  offset : Nat
  length : Nat
  end_ : Nat
  version : Nat
  unitType : Nat
  addrlen : Nat
  dwarfLen : Nat
  abbrevOffset : Nat
  id : List Nat
  rootOffset : Nat
  deriving DecidableEq, Repr

/-- Embedding of the `Unit::Unit` header parse (dwarf_unit.cc).  `elfBytes`
is `ELF_BYTES`, the architecture address size.  Unit kinds carry their DWARF5
numeric codes (1 compile, 2 type, 3 partial-unit, 4 skeleton,
5 split-compile, 6 split-type); `abort()` on any other kind is the fatal
format error.  For pre-v5 units the kind field keeps a default 0. -/
def mkUnit (elfBytes : Nat) (r : DWARFReader) : Except String UnitHdr :=
  let offset := r.off
  let (length, dwarfLen0, r1) := getlength r
  let end_ := r1.off + length
  let (version, r2) := getu16 r1
  let dwarfLen := if version ≤ 2 then elfBytes else dwarfLen0
  if version ≥ 5 then
    let (ut, r3) := getu8 r2
    if ut = 1 ∨ ut = 2 ∨ ut = 3 ∨ ut = 4 then
      let (al, r4) := getu8 r3
      let (ao, r5) := getuint dwarfLen r4
      .ok ⟨offset, length, end_, version, ut, al, dwarfLen, ao, [], r5.off⟩
    else if ut = 5 ∨ ut = 6 then
      let (al, r4) := getu8 r3
      let (ao, r5) := getuint dwarfLen r4
      let (idb, r6) := getBytes 8 r5
      .ok ⟨offset, length, end_, version, ut, al, dwarfLen, ao, idb, r6.off⟩
    else .error "unknown unit type"
  else
    let (ao, r3) := getuint (if version ≤ 2 then 4 else dwarfLen) r2
    let (al, r4) := getu8 r3
    .ok ⟨offset, length, end_, version, 0, al, dwarfLen, ao, [], r4.off⟩

/-- Result of `DIE::containsAddress`. -/
inductive ContainsAddr where
  | yes
  | no
  | unknown
  deriving DecidableEq, Repr

/-- A file reference in the line table. -/
structure LineFile where
  name : String
  dirindex : Nat
  deriving DecidableEq, Repr

/-- One row of the line-number matrix. -/
structure LineRow where
  addr : Nat
  line : Int
  end_sequence : Bool
  file : LineFile
  deriving DecidableEq, Repr

/-- A materialized line-number program: its matrix and directory table. -/
structure LineInfo where
  matrix : List LineRow
  directories : List String
  deriving DecidableEq, Repr

/-- The linear scan of `Unit::sourceFromAddr` (dwarf_unit.cc): skip
end_sequence rows, return the first row `i` with
`i.addr ≤ addr < (i+1).addr`.  For a final row that is not end_sequence the
C++ would dereference one past the end (well-formed matrices end with an
end_sequence row); the model returns no match there. -/
def scanMatrix (addr : Nat) : List LineRow → Option LineRow
  | r1 :: r2 :: rest =>
    if r1.end_sequence then scanMatrix addr (r2 :: rest)
    else if r1.addr ≤ addr ∧ r2.addr > addr then some r1
    else scanMatrix addr (r2 :: rest)
  | _ => none

/-- Embedding of `Unit::sourceFromAddr` (dwarf_unit.cc).  `containsRoot`
models `root().containsAddress(addr)` and `lines` the result of
`getLines()` (both produced by library code outside src/); `verbose` is the
global verbosity flag.  An out-of-range `dirindex` is modelled as the empty
directory name. -/
def sourceFromAddr (containsRoot : ContainsAddr) (lines : Option LineInfo)
    (verbose : Bool) (addr : Nat) : Option (String × Int) :=
  if containsRoot = .no then none
  else
    match lines with
    | none => none
    | some li =>
      match scanMatrix addr li.matrix with
      | some r =>
        some (if verbose then (li.directories.getD r.file.dirindex "") ++ "/" ++ r.file.name
              else r.file.name, r.line)
      | none => none

/-- Does the adjacent pair `(r1, r2)` match `addr` in the scan. -/
def pairMatches (addr : Nat) (r1 r2 : LineRow) : Bool :=
  (!r1.end_sequence) && decide (r1.addr ≤ addr) && decide (addr < r2.addr)

/-- Reference scan: the first adjacent pair of rows matching `addr`. -/
def specScan (addr : Nat) (rows : List LineRow) : Option LineRow :=
  ((rows.zip rows.tail).find? (fun pr => pairMatches addr pr.1 pr.2)).map (·.1)

/-- The S6 line table: rows at 0x1000 (line 10), 0x1010 (line 12), and an
end_sequence row at 0x1020, all for file "a.c" in directory "src". -/
def s6li : LineInfo :=
  ⟨[⟨0x1000, 10, false, ⟨"a.c", 0⟩⟩, ⟨0x1010, 12, false, ⟨"a.c", 0⟩⟩,
    ⟨0x1020, 0, true, ⟨"a.c", 0⟩⟩], ["src"]⟩

theorem readLoop_zero_size (core? : Option ElfObject) (loaded : List LoadedObject)
    (fuel addr : Nat) : readLoop core? loaded fuel addr 0 = .ok ([], []) := by
  cases fuel <;> simp [readLoop]

theorem range_map_split (k m : Nat) (f : Nat → Nat) :
    (List.range (k + m)).map f
      = ((List.range k).map f) ++ ((List.range m).map (fun i => f (k + i))) := by
  rw [List.range_add, List.map_append, List.map_map]; rfl

theorem range_map_const (n c : Nat) :
    (List.range n).map (fun _ => c) = List.replicate n c := by
  simp [List.map_const']

theorem readFromHdr_slice (d : Nat → Nat) (segs : List Phdr) (hdr : Phdr)
    (addr size toClear : Nat) :
    readFromHdr ⟨sliceReader d, segs⟩ hdr addr size toClear =
      (if addr - hdr.p_vaddr < hdr.p_filesz then
        .ok ((List.range (min (hdr.p_filesz - (addr - hdr.p_vaddr)) size)).map
              (fun i => d (hdr.p_offset + (addr - hdr.p_vaddr) + i)),
          max (toClear - min (hdr.p_filesz - (addr - hdr.p_vaddr)) size)
            (if size - min (hdr.p_filesz - (addr - hdr.p_vaddr)) size ≠ 0 ∧
                (addr - hdr.p_vaddr) + min (hdr.p_filesz - (addr - hdr.p_vaddr)) size < hdr.p_memsz
             then min (size - min (hdr.p_filesz - (addr - hdr.p_vaddr)) size)
                    (hdr.p_memsz - ((addr - hdr.p_vaddr) + min (hdr.p_filesz - (addr - hdr.p_vaddr)) size))
             else 0))
      else
        .ok ([], max toClear
          (if size ≠ 0 ∧ addr - hdr.p_vaddr < hdr.p_memsz
           then min size (hdr.p_memsz - (addr - hdr.p_vaddr)) else 0))) := by
  simp [readFromHdr, sliceReader]

/-- C1: a read whose range lies within one snapshot segment's
`[vaddr, vaddr + mem_size)` (with no loaded object covering the range)
returns exactly `len` bytes; bytes at positions before `vaddr + file_size`
come from the snapshot's underlying bytes at `file_off + (pos - vaddr)` and
bytes at or past `vaddr + file_size` are zero — the split is exactly at
`vaddr + file_size`. -/
theorem read_within_snapshot_segment
    (d : Nat → Nat) (segs : List Phdr) (loaded : List LoadedObject)
    (seg : Phdr) (addr len : Nat)
    (hseg : getSegmentForAddress ⟨sliceReader d, segs⟩ addr = some seg)
    (hlo : ∀ a, addr ≤ a → a < addr + len → findSegment loaded a = none)
    (h1 : seg.p_vaddr ≤ addr)
    (h2 : addr + len ≤ seg.p_vaddr + seg.p_memsz) :
    coreReaderRead (some ⟨sliceReader d, segs⟩) loaded addr len
      = .ok ((List.range len).map (fun i =>
          if addr + i < seg.p_vaddr + seg.p_filesz
          then d (seg.p_offset + (addr + i - seg.p_vaddr)) else 0)) := by
  rcases Nat.eq_zero_or_pos len with hlen | hlen
  · subst hlen
    simp [coreReaderRead, readLoop, Except.map]
  have hlen' : len ≠ 0 := Nat.pos_iff_ne_zero.mp hlen
  by_cases hA : addr + len ≤ seg.p_vaddr + seg.p_filesz
  · -- entirely within the file portion
    have hoff : addr - seg.p_vaddr < seg.p_filesz := by omega
    have hmin : min (seg.p_filesz - (addr - seg.p_vaddr)) len = len := by omega
    have hstep : readStep (some ⟨sliceReader d, segs⟩) loaded addr len =
        .next ((List.range len).map (fun i => d (seg.p_offset + (addr - seg.p_vaddr) + i)))
          (addr + len) 0 ⟨true, len, 0, false⟩ := by
      simp only [readStep, readStepTail, hseg, readFromHdr_slice]
      rw [if_pos hoff, hmin]
      simp [hlen']
    have hrun : coreReaderRead (some ⟨sliceReader d, segs⟩) loaded addr len
        = .ok ((List.range len).map (fun i => d (seg.p_offset + (addr - seg.p_vaddr) + i))) := by
      simp [coreReaderRead, readLoop, hlen', hstep, readLoop_zero_size, Except.map]
    rw [hrun]
    congr 1
    apply List.map_congr_left
    intro i hi
    have hi' : i < len := List.mem_range.mp hi
    have hcond : addr + i < seg.p_vaddr + seg.p_filesz := by omega
    rw [if_pos hcond]
    congr 1
    omega
  · by_cases hC : addr - seg.p_vaddr < seg.p_filesz
    · -- straddles the file/zero boundary
      have hrv : min (seg.p_filesz - (addr - seg.p_vaddr)) len
          = seg.p_filesz - (addr - seg.p_vaddr) := by omega
      have e3 : addr - seg.p_vaddr + (seg.p_filesz - (addr - seg.p_vaddr)) = seg.p_filesz := by
        omega
      have e2 : len - (seg.p_filesz - (addr - seg.p_vaddr)) ≠ 0 := by omega
      have e4 : seg.p_filesz < seg.p_memsz := by omega
      have e5 : min (len - (seg.p_filesz - (addr - seg.p_vaddr))) (seg.p_memsz - seg.p_filesz)
          = len - (seg.p_filesz - (addr - seg.p_vaddr)) := by omega
      have hfs : findSegment loaded (addr + (seg.p_filesz - (addr - seg.p_vaddr))) = none := by
        apply hlo <;> omega
      have hstep : readStep (some ⟨sliceReader d, segs⟩) loaded addr len =
          .next (((List.range (seg.p_filesz - (addr - seg.p_vaddr))).map
                   (fun i => d (seg.p_offset + (addr - seg.p_vaddr) + i)))
                 ++ List.replicate (len - (seg.p_filesz - (addr - seg.p_vaddr))) 0)
            (addr + (seg.p_filesz - (addr - seg.p_vaddr))
              + (len - (seg.p_filesz - (addr - seg.p_vaddr)))) 0
            ⟨true, seg.p_filesz - (addr - seg.p_vaddr),
              len - (seg.p_filesz - (addr - seg.p_vaddr)), true⟩ := by
        simp only [readStep, readStepTail, hseg, readFromHdr_slice]
        rw [if_pos hC, hrv, e3]
        simp only [Nat.zero_sub, e2, e4, e5, List.length_map, List.length_range]
        simp [e2, hfs, Nat.sub_self]
      have hrun : coreReaderRead (some ⟨sliceReader d, segs⟩) loaded addr len
          = .ok (((List.range (seg.p_filesz - (addr - seg.p_vaddr))).map
                   (fun i => d (seg.p_offset + (addr - seg.p_vaddr) + i)))
                 ++ List.replicate (len - (seg.p_filesz - (addr - seg.p_vaddr))) 0) := by
        simp [coreReaderRead, readLoop, hlen', hstep, readLoop_zero_size, Except.map]
      rw [hrun]
      congr 1
      have hsplit := range_map_split (seg.p_filesz - (addr - seg.p_vaddr))
        (len - (seg.p_filesz - (addr - seg.p_vaddr)))
        (fun i => if addr + i < seg.p_vaddr + seg.p_filesz
          then d (seg.p_offset + (addr + i - seg.p_vaddr)) else 0)
      rw [show seg.p_filesz - (addr - seg.p_vaddr)
            + (len - (seg.p_filesz - (addr - seg.p_vaddr))) = len from by omega] at hsplit
      rw [hsplit]
      congr 1
      · apply List.map_congr_left
        intro i hi
        have hi' : i < seg.p_filesz - (addr - seg.p_vaddr) := List.mem_range.mp hi
        have hcond : addr + i < seg.p_vaddr + seg.p_filesz := by omega
        rw [if_pos hcond]
        congr 1
        omega
      · rw [← range_map_const (len - (seg.p_filesz - (addr - seg.p_vaddr))) 0]
        apply List.map_congr_left
        intro i hi
        have hcond : ¬ (addr + (seg.p_filesz - (addr - seg.p_vaddr) + i)
            < seg.p_vaddr + seg.p_filesz) := by omega
        rw [if_neg hcond]
    · -- entirely in the zero-fill tail
      have hoffm : addr - seg.p_vaddr < seg.p_memsz := by omega
      have hmin : min len (seg.p_memsz - (addr - seg.p_vaddr)) = len := by omega
      have hfs : findSegment loaded addr = none := by
        apply hlo <;> omega
      have hstep : readStep (some ⟨sliceReader d, segs⟩) loaded addr len =
          .next (List.replicate len 0) (addr + len) 0 ⟨true, 0, len, true⟩ := by
        simp only [readStep, readStepTail, hseg, readFromHdr_slice]
        rw [if_neg hC]
        simp [hlen', hoffm, hmin, hfs, Nat.sub_self]
      have hrun : coreReaderRead (some ⟨sliceReader d, segs⟩) loaded addr len
          = .ok (List.replicate len 0) := by
        simp [coreReaderRead, readLoop, hlen', hstep, readLoop_zero_size, Except.map]
      rw [hrun]
      congr 1
      rw [← range_map_const len 0]
      symm
      apply List.map_congr_left
      intro i hi
      have hcond : ¬ (addr + i < seg.p_vaddr + seg.p_filesz) := by omega
      rw [if_neg hcond]

theorem readFromHdr_ok_bound (obj : ElfObject) (hdr : Phdr) (addr size toClear : Nat)
    (bs : List Nat) (z : Nat) (h : toClear ≤ size)
    (hok : readFromHdr obj hdr addr size toClear = .ok (bs, z)) :
    bs.length ≤ size ∧ bs.length + z ≤ size := by
  simp only [readFromHdr] at hok
  split at hok
  · split at hok
    · simp at hok
    · rename_i hoff hlen2
      rw [Decidable.not_not] at hlen2
      rw [Except.ok.injEq, Prod.mk.injEq] at hok
      obtain ⟨hbs, hz⟩ := hok
      subst hbs
      rw [hlen2]
      split at hz <;> omega
  · rw [Except.ok.injEq, Prod.mk.injEq] at hok
    obtain ⟨hbs, hz⟩ := hok
    subst hbs
    simp only [List.length_nil]
    split at hz <;> omega

theorem readStepTail_stepOk (loaded : List LoadedObject) (b1 : List Nat)
    (z1 a1 s1 : Nat) (hit : Bool) (size : Nat)
    (hb : b1.length + s1 ≤ size) (hz : z1 ≤ s1) :
    stepOk size (readStepTail loaded b1 z1 a1 s1 hit) := by
  cases hfs : findSegment loaded a1 with
  | none =>
    by_cases hz0 : z1 = 0
    · have he : readStepTail loaded b1 z1 a1 s1 hit = .stop b1 ⟨hit, b1.length, z1, true⟩ := by
        simp [readStepTail, hfs, hz0]
      rw [he]
      simp only [stepOk]
      omega
    · have he : readStepTail loaded b1 z1 a1 s1 hit
          = .next (b1 ++ List.replicate z1 0) (a1 + z1) (s1 - z1)
              ⟨hit, b1.length, z1, true⟩ := by
        simp [readStepTail, hfs, hz0]
      rw [he]
      simp only [stepOk, List.length_append, List.length_replicate]
      omega
  | some t =>
    obtain ⟨loadAddr, obj, hdr⟩ := t
    cases hok : readFromHdr obj hdr (a1 - loadAddr) s1 z1 with
    | error e =>
      have he : readStepTail loaded b1 z1 a1 s1 hit = .fatal e := by
        simp [readStepTail, hfs, hok]
      rw [he]
      simp only [stepOk]
    | ok p =>
      obtain ⟨b2, z2⟩ := p
      have hbound := readFromHdr_ok_bound obj hdr (a1 - loadAddr) s1 z1 b2 z2 hz hok
      have he : readStepTail loaded b1 z1 a1 s1 hit
          = .next (b1 ++ b2 ++ List.replicate z2 0) (a1 + b2.length + z2)
              (s1 - b2.length - z2) ⟨hit, b1.length, z1, true⟩ := by
        simp [readStepTail, hfs, hok]
      rw [he]
      simp only [stepOk, List.length_append, List.length_replicate]
      omega

theorem readStep_stepOk (core? : Option ElfObject) (loaded : List LoadedObject)
    (addr size : Nat) : stepOk size (readStep core? loaded addr size) := by
  cases core? with
  | none =>
    have he : readStep none loaded addr size = readStepTail loaded [] 0 addr size false := by
      simp [readStep]
    rw [he]
    exact readStepTail_stepOk loaded [] 0 addr size false size (by simp) (Nat.zero_le _)
  | some core =>
    cases hseg : getSegmentForAddress core addr with
    | none =>
      have he : readStep (some core) loaded addr size
          = readStepTail loaded [] 0 addr size false := by
        simp [readStep, hseg]
      rw [he]
      exact readStepTail_stepOk loaded [] 0 addr size false size (by simp) (Nat.zero_le _)
    | some hdr =>
      cases hok : readFromHdr core hdr addr size 0 with
      | error e =>
        have he : readStep (some core) loaded addr size = .fatal e := by
          simp [readStep, hseg, hok]
        rw [he]
        simp only [stepOk]
      | ok p =>
        obtain ⟨b1, z1⟩ := p
        have hbound := readFromHdr_ok_bound core hdr addr size 0 b1 z1 (Nat.zero_le _) hok
        by_cases hg : b1.length ≠ 0 ∧ z1 = 0
        · have he : readStep (some core) loaded addr size
              = .next b1 (addr + b1.length) (size - b1.length)
                  ⟨true, b1.length, z1, false⟩ := by
            simp [readStep, hseg, hok, hg]
          rw [he]
          simp only [stepOk]
          omega
        · have he : readStep (some core) loaded addr size
              = readStepTail loaded b1 z1 (addr + b1.length) (size - b1.length) true := by
            simp only [readStep, hseg, hok]
            rw [if_neg hg]
          rw [he]
          exact readStepTail_stepOk loaded b1 z1 _ _ true size (by omega) (by omega)

theorem readLoop_length_le (core? : Option ElfObject) (loaded : List LoadedObject) :
    ∀ fuel addr size out tr,
      readLoop core? loaded fuel addr size = .ok (out, tr) → out.length ≤ size := by
  intro fuel
  induction fuel with
  | zero =>
    intro addr size out tr h
    simp only [readLoop, Except.ok.injEq, Prod.mk.injEq] at h
    obtain ⟨h1, _⟩ := h
    subst h1
    simp
  | succ n ih =>
    intro addr size out tr h
    simp only [readLoop] at h
    by_cases hs : size = 0
    · rw [if_pos hs] at h
      rw [Except.ok.injEq, Prod.mk.injEq] at h
      obtain ⟨h1, _⟩ := h
      subst h1
      simp
    · rw [if_neg hs] at h
      have hso := readStep_stepOk core? loaded addr size
      cases hstep : readStep core? loaded addr size with
      | fatal e =>
        rw [hstep] at h
        simp at h
      | stop bs log =>
        rw [hstep] at h hso
        simp at h
        obtain ⟨h1, _⟩ := h
        subst h1
        simp only [stepOk] at hso
        omega
      | next bs a sz log =>
        rw [hstep] at h hso
        simp at h
        cases hrec : readLoop core? loaded n a sz with
        | error e =>
          rw [hrec] at h
          simp at h
        | ok p =>
          obtain ⟨bs2, logs⟩ := p
          rw [hrec] at h
          simp at h
          obtain ⟨h1, _⟩ := h
          have hih := ih a sz bs2 logs hrec
          simp only [stepOk] at hso
          subst h1
          simp only [List.length_append]
          omega

/-- C10: the returned count never exceeds the requested length. -/
theorem read_count_le_requested (core? : Option ElfObject) (loaded : List LoadedObject)
    (addr len : Nat) (out : List Nat)
    (h : coreReaderRead core? loaded addr len = .ok out) : out.length ≤ len := by
  unfold coreReaderRead at h
  cases hE : readLoop core? loaded (len + 1) addr len with
  | error e => rw [hE] at h; simp [Except.map] at h
  | ok p =>
    obtain ⟨out2, tr⟩ := p
    rw [hE] at h
    simp only [Except.map, Except.ok.injEq] at h
    subst h
    exact readLoop_length_le core? loaded (len + 1) addr len out2 tr hE

theorem readStepTail_logsOk (loaded : List LoadedObject) (b1 : List Nat)
    (z1 a1 s1 : Nat) (hit : Bool) (hcond : b1.length = 0 ∨ z1 ≠ 0) :
    stepLogsOk (readStepTail loaded b1 z1 a1 s1 hit) := by
  cases hfs : findSegment loaded a1 with
  | none =>
    by_cases hz0 : z1 = 0
    · have he : readStepTail loaded b1 z1 a1 s1 hit = .stop b1 ⟨hit, b1.length, z1, true⟩ := by
        simp [readStepTail, hfs, hz0]
      rw [he]
      simpa [stepLogsOk, logOk] using hcond
    · have he : readStepTail loaded b1 z1 a1 s1 hit
          = .next (b1 ++ List.replicate z1 0) (a1 + z1) (s1 - z1)
              ⟨hit, b1.length, z1, true⟩ := by
        simp [readStepTail, hfs, hz0]
      rw [he]
      simpa [stepLogsOk, logOk] using hcond
  | some t =>
    obtain ⟨loadAddr, obj, hdr⟩ := t
    cases hok : readFromHdr obj hdr (a1 - loadAddr) s1 z1 with
    | error e =>
      have he : readStepTail loaded b1 z1 a1 s1 hit = .fatal e := by
        simp [readStepTail, hfs, hok]
      rw [he]
      simp [stepLogsOk]
    | ok p =>
      obtain ⟨b2, z2⟩ := p
      have he : readStepTail loaded b1 z1 a1 s1 hit
          = .next (b1 ++ b2 ++ List.replicate z2 0) (a1 + b2.length + z2)
              (s1 - b2.length - z2) ⟨hit, b1.length, z1, true⟩ := by
        simp [readStepTail, hfs, hok]
      rw [he]
      simpa [stepLogsOk, logOk] using hcond

theorem readStep_logsOk (core? : Option ElfObject) (loaded : List LoadedObject)
    (addr size : Nat) : stepLogsOk (readStep core? loaded addr size) := by
  cases core? with
  | none =>
    have he : readStep none loaded addr size = readStepTail loaded [] 0 addr size false := by
      simp [readStep]
    rw [he]
    exact readStepTail_logsOk loaded [] 0 addr size false (by simp)
  | some core =>
    cases hseg : getSegmentForAddress core addr with
    | none =>
      have he : readStep (some core) loaded addr size
          = readStepTail loaded [] 0 addr size false := by
        simp [readStep, hseg]
      rw [he]
      exact readStepTail_logsOk loaded [] 0 addr size false (by simp)
    | some hdr =>
      cases hok : readFromHdr core hdr addr size 0 with
      | error e =>
        have he : readStep (some core) loaded addr size = .fatal e := by
          simp [readStep, hseg, hok]
        rw [he]
        simp [stepLogsOk]
      | ok p =>
        obtain ⟨b1, z1⟩ := p
        by_cases hg : b1.length ≠ 0 ∧ z1 = 0
        · have he : readStep (some core) loaded addr size
              = .next b1 (addr + b1.length) (size - b1.length)
                  ⟨true, b1.length, z1, false⟩ := by
            simp [readStep, hseg, hok, hg]
          rw [he]
          simp only [stepLogsOk, logOk]
          simp only [Bool.false_eq_true, false_iff]
          push_neg
          exact ⟨hg.1, hg.2⟩
        · have he : readStep (some core) loaded addr size
              = readStepTail loaded b1 z1 (addr + b1.length) (size - b1.length) true := by
            simp only [readStep, hseg, hok]
            rw [if_neg hg]
          rw [he]
          apply readStepTail_logsOk
          by_cases hb0 : b1.length = 0
          · exact Or.inl hb0
          · exact Or.inr (fun hz => hg ⟨hb0, hz⟩)

theorem readLoop_logsOk (core? : Option ElfObject) (loaded : List LoadedObject) :
    ∀ fuel addr size out tr,
      readLoop core? loaded fuel addr size = .ok (out, tr) → ∀ e ∈ tr, logOk e := by
  intro fuel
  induction fuel with
  | zero =>
    intro addr size out tr h
    simp only [readLoop, Except.ok.injEq, Prod.mk.injEq] at h
    obtain ⟨_, h2⟩ := h
    subst h2
    simp
  | succ n ih =>
    intro addr size out tr h
    simp only [readLoop] at h
    by_cases hs : size = 0
    · rw [if_pos hs] at h
      rw [Except.ok.injEq, Prod.mk.injEq] at h
      obtain ⟨_, h2⟩ := h
      subst h2
      simp
    · rw [if_neg hs] at h
      have hso := readStep_logsOk core? loaded addr size
      cases hstep : readStep core? loaded addr size with
      | fatal e =>
        rw [hstep] at h
        simp at h
      | stop bs log =>
        rw [hstep] at h hso
        simp at h
        obtain ⟨_, h2⟩ := h
        subst h2
        simp only [stepLogsOk] at hso
        intro e he
        simp only [List.mem_singleton] at he
        subst he
        exact hso
      | next bs a sz log =>
        rw [hstep] at h hso
        simp at h
        cases hrec : readLoop core? loaded n a sz with
        | error e =>
          rw [hrec] at h
          simp at h
        | ok p =>
          obtain ⟨bs2, logs⟩ := p
          rw [hrec] at h
          simp at h
          obtain ⟨_, h2⟩ := h
          subst h2
          simp only [stepLogsOk] at hso
          intro e he
          rcases List.mem_cons.mp he with he1 | he2
          · subst he1
            exact hso
          · exact ih a sz bs2 logs hrec e he2

/-- C2 (amended): in every iteration, the loaded-object set is consulted
exactly when the snapshot step contributed no real bytes or left zero-fill
pending; equivalently it is skipped only when the snapshot supplied real
bytes with no zero-fill. -/
theorem find_segment_consultation_rule (core? : Option ElfObject)
    (loaded : List LoadedObject) (addr len : Nat) (tr : List IterStep)
    (h : coreReaderTrace core? loaded addr len = .ok tr) :
    ∀ e ∈ tr, e.consulted = true ↔ (e.snapBytes = 0 ∨ e.snapZeroes ≠ 0) := by
  unfold coreReaderTrace at h
  cases hE : readLoop core? loaded (len + 1) addr len with
  | error e => rw [hE] at h; simp [Except.map] at h
  | ok p =>
    obtain ⟨out, tr2⟩ := p
    rw [hE] at h
    simp only [Except.map, Except.ok.injEq] at h
    subst h
    exact readLoop_logsOk core? loaded (len + 1) addr len out tr2 hE

theorem readFromHdr_error_iff (obj : ElfObject) (hdr : Phdr) (addr size toClear : Nat) :
    (∃ e, readFromHdr obj hdr addr size toClear = .error e) ↔
      (addr - hdr.p_vaddr < hdr.p_filesz ∧
       (obj.io.readAt (hdr.p_offset + (addr - hdr.p_vaddr))
           (min (hdr.p_filesz - (addr - hdr.p_vaddr)) size)).length
         ≠ min (hdr.p_filesz - (addr - hdr.p_vaddr)) size) := by
  constructor
  · rintro ⟨e, he⟩
    simp only [readFromHdr] at he
    by_cases hoff : addr - hdr.p_vaddr < hdr.p_filesz
    · rw [if_pos hoff] at he
      refine ⟨hoff, ?_⟩
      by_cases hlen : (obj.io.readAt (hdr.p_offset + (addr - hdr.p_vaddr))
          (min (hdr.p_filesz - (addr - hdr.p_vaddr)) size)).length
            ≠ min (hdr.p_filesz - (addr - hdr.p_vaddr)) size
      · exact hlen
      · rw [if_neg hlen] at he
        simp at he
    · rw [if_neg hoff] at he
      simp at he
  · rintro ⟨hoff, hlen⟩
    refine ⟨"unexpected short read in core file", ?_⟩
    simp only [readFromHdr]
    rw [if_pos hoff, if_pos hlen]

theorem readFromHdr_error_msg (obj : ElfObject) (hdr : Phdr) (addr size toClear : Nat)
    (e : String) (h : readFromHdr obj hdr addr size toClear = .error e) :
    e = "unexpected short read in core file" := by
  simp only [readFromHdr] at h
  by_cases hoff : addr - hdr.p_vaddr < hdr.p_filesz
  · rw [if_pos hoff] at h
    by_cases hlen : (obj.io.readAt (hdr.p_offset + (addr - hdr.p_vaddr))
        (min (hdr.p_filesz - (addr - hdr.p_vaddr)) size)).length
          ≠ min (hdr.p_filesz - (addr - hdr.p_vaddr)) size
    · rw [if_pos hlen] at h
      exact (Except.error.injEq .. ▸ h).symm
    · rw [if_neg hlen] at h
      simp at h
  · rw [if_neg hoff] at h
    simp at h

theorem readFromHdr_exact_ok (obj : ElfObject) (hdr : Phdr) (addr size toClear : Nat)
    (hex : obj.io.exact) : ∃ p, readFromHdr obj hdr addr size toClear = .ok p := by
  simp only [readFromHdr]
  by_cases hoff : addr - hdr.p_vaddr < hdr.p_filesz
  · rw [if_pos hoff]
    rw [if_neg (by simp [hex _ _])]
    exact ⟨_, rfl⟩
  · rw [if_neg hoff]
    exact ⟨_, rfl⟩

theorem findSegment_mem (loaded : List LoadedObject) (addr : Nat)
    (b : Nat) (o : ElfObject) (h : Phdr) :
    findSegment loaded addr = some (b, o, h) → ∃ lo ∈ loaded, lo.obj = o := by
  induction loaded with
  | nil => intro hf; simp [findSegment] at hf
  | cons lo rest ih =>
    intro hf
    simp only [findSegment] at hf
    cases hfind : lo.obj.segments.find?
        (fun hh => decide (lo.loadBias + hh.p_vaddr ≤ addr ∧
                           addr < lo.loadBias + hh.p_vaddr + hh.p_memsz)) with
    | some hh =>
      rw [hfind] at hf
      simp at hf
      exact ⟨lo, List.mem_cons_self lo rest, hf.2.1⟩
    | none =>
      rw [hfind] at hf
      obtain ⟨lo2, hmem, heq⟩ := ih hf
      exact ⟨lo2, List.mem_cons_of_mem lo hmem, heq⟩

theorem readStepTail_no_fatal (loaded : List LoadedObject) (b1 : List Nat)
    (z1 a1 s1 : Nat) (hit : Bool)
    (hexl : ∀ lo ∈ loaded, lo.obj.io.exact) :
    ∀ e, readStepTail loaded b1 z1 a1 s1 hit ≠ .fatal e := by
  intro e
  cases hfs : findSegment loaded a1 with
  | none =>
    by_cases hz0 : z1 = 0 <;> simp [readStepTail, hfs, hz0]
  | some t =>
    obtain ⟨loadAddr, obj, hdr⟩ := t
    obtain ⟨lo, hmem, hobj⟩ := findSegment_mem loaded a1 loadAddr obj hdr hfs
    have hex : obj.io.exact := hobj ▸ hexl lo hmem
    obtain ⟨p, hok⟩ := readFromHdr_exact_ok obj hdr (a1 - loadAddr) s1 z1 hex
    obtain ⟨b2, z2⟩ := p
    simp [readStepTail, hfs, hok]

theorem readStep_no_fatal (core? : Option ElfObject) (loaded : List LoadedObject)
    (addr size : Nat) (hexc : ∀ c, core? = some c → c.io.exact)
    (hexl : ∀ lo ∈ loaded, lo.obj.io.exact) :
    ∀ e, readStep core? loaded addr size ≠ .fatal e := by
  intro e
  cases core? with
  | none =>
    have he : readStep none loaded addr size = readStepTail loaded [] 0 addr size false := by
      simp [readStep]
    rw [he]
    exact readStepTail_no_fatal loaded [] 0 addr size false hexl e
  | some core =>
    cases hseg : getSegmentForAddress core addr with
    | none =>
      have he : readStep (some core) loaded addr size
          = readStepTail loaded [] 0 addr size false := by
        simp [readStep, hseg]
      rw [he]
      exact readStepTail_no_fatal loaded [] 0 addr size false hexl e
    | some hdr =>
      obtain ⟨p, hok⟩ := readFromHdr_exact_ok core hdr addr size 0 (hexc core rfl)
      obtain ⟨b1, z1⟩ := p
      by_cases hg : b1.length ≠ 0 ∧ z1 = 0
      · have he : readStep (some core) loaded addr size
            = .next b1 (addr + b1.length) (size - b1.length)
                ⟨true, b1.length, z1, false⟩ := by
          simp [readStep, hseg, hok, hg]
        rw [he]
        simp
      · have he : readStep (some core) loaded addr size
            = readStepTail loaded b1 z1 (addr + b1.length) (size - b1.length) true := by
          simp only [readStep, hseg, hok]
          rw [if_neg hg]
        rw [he]
        exact readStepTail_no_fatal loaded b1 z1 _ _ true hexl e

theorem readLoop_exact_ok (core? : Option ElfObject) (loaded : List LoadedObject)
    (hexc : ∀ c, core? = some c → c.io.exact)
    (hexl : ∀ lo ∈ loaded, lo.obj.io.exact) :
    ∀ fuel addr size, ∃ p, readLoop core? loaded fuel addr size = .ok p := by
  intro fuel
  induction fuel with
  | zero => intro addr size; exact ⟨_, rfl⟩
  | succ n ih =>
    intro addr size
    by_cases hs : size = 0
    · refine ⟨([], []), ?_⟩
      simp [readLoop, hs]
    · cases hstep : readStep core? loaded addr size with
      | fatal e => exact absurd hstep (readStep_no_fatal core? loaded addr size hexc hexl e)
      | stop bs log =>
        refine ⟨(bs, [log]), ?_⟩
        simp [readLoop, hs, hstep]
      | next bs a sz log =>
        obtain ⟨⟨bs2, logs⟩, hrec⟩ := ih a sz
        refine ⟨(bs ++ bs2, log :: logs), ?_⟩
        simp [readLoop, hs, hstep, hrec]

theorem read_unmapped (core? : Option ElfObject) (loaded : List LoadedObject)
    (addr len : Nat)
    (hc : ∀ c, core? = some c → getSegmentForAddress c addr = none)
    (hf : findSegment loaded addr = none) :
    coreReaderRead core? loaded addr len = .ok [] := by
  rcases Nat.eq_zero_or_pos len with h0 | hpos
  · subst h0
    simp [coreReaderRead, readLoop, Except.map]
  have hlen' : len ≠ 0 := Nat.pos_iff_ne_zero.mp hpos
  have htail : readStepTail loaded [] 0 addr len false = .stop [] ⟨false, 0, 0, true⟩ := by
    simp [readStepTail, hf]
  have hstep : readStep core? loaded addr len = .stop [] ⟨false, 0, 0, true⟩ := by
    cases core? with
    | none =>
      have he : readStep none loaded addr len = readStepTail loaded [] 0 addr len false := by
        simp [readStep]
      rw [he]
      exact htail
    | some c =>
      have hcc := hc c rfl
      have he : readStep (some c) loaded addr len
          = readStepTail loaded [] 0 addr len false := by
        simp [readStep, hcc]
      rw [he]
      exact htail
  simp [coreReaderRead, readLoop, hlen', hstep, Except.map]

/-- C3: `read` raises the fatal "snapshot truncated" error exactly when an
underlying ByteReader supplies a short read inside a segment's file portion;
with exact readers no error is possible, and an address covered by no
snapshot segment and no loaded object yields the short count 0. -/
theorem read_error_characterization :
    (∀ (obj : ElfObject) (hdr : Phdr) (addr size toClear : Nat),
        (∃ e, readFromHdr obj hdr addr size toClear = .error e) ↔
          (addr - hdr.p_vaddr < hdr.p_filesz ∧
           (obj.io.readAt (hdr.p_offset + (addr - hdr.p_vaddr))
               (min (hdr.p_filesz - (addr - hdr.p_vaddr)) size)).length
             ≠ min (hdr.p_filesz - (addr - hdr.p_vaddr)) size))
    ∧ (∀ (obj : ElfObject) (hdr : Phdr) (addr size toClear : Nat) (e : String),
        readFromHdr obj hdr addr size toClear = .error e →
          e = "unexpected short read in core file")
    ∧ (∀ (core : ElfObject) (loaded : List LoadedObject) (addr len : Nat),
        core.io.exact → (∀ lo ∈ loaded, lo.obj.io.exact) →
          ∃ out, coreReaderRead (some core) loaded addr len = .ok out)
    ∧ (∀ (core? : Option ElfObject) (loaded : List LoadedObject) (addr len : Nat),
        (∀ c, core? = some c → getSegmentForAddress c addr = none) →
          findSegment loaded addr = none →
          coreReaderRead core? loaded addr len = .ok []) := by
  refine ⟨readFromHdr_error_iff, readFromHdr_error_msg, ?_, read_unmapped⟩
  intro core loaded addr len hexc hexl
  obtain ⟨⟨out, tr⟩, h⟩ := readLoop_exact_ok (some core) loaded
    (fun c hc => by injection hc with hh; rw [← hh]; exact hexc) hexl (len + 1) addr len
  exact ⟨out, by simp [coreReaderRead, h, Except.map]⟩

theorem read_within_snapshot_segment_s1 :
    coreReaderRead (some coreS1) [] 0x400FFE 4 = .ok [0xFE, 0xFF, 0, 0] := by
  have h := read_within_snapshot_segment (fun i => i % 256)
    [⟨0x400000, 0, 0x1000, 0x2000⟩] [] ⟨0x400000, 0, 0x1000, 0x2000⟩ 0x400FFE 4
    (by rfl) (fun a _ _ => rfl) (by decide) (by decide)
  exact h.trans (by rfl)

theorem read_error_characterization_s2 :
    coreReaderRead (some coreS1) [] 0x402000 1 = .ok [] := by
  exact read_error_characterization.2.2.2 (some coreS1) [] 0x402000 1
    (fun c hc => by injection hc with hh; rw [← hh]; rfl) rfl

theorem read_count_le_requested_inst : ([0, 1, 2] : List Nat).length ≤ 3 :=
  read_count_le_requested (some coreS1) [] 0x400800 3 [0, 1, 2] (by rfl)

/-- C2 as stated is false on the code: here the snapshot segment covers the
cursor and contributes zero-fill (`snapZeroes = 4 ≠ 0`), yet `findSegment`
is still consulted (`consulted = true`) — and the loaded object's real bytes
(171), not zeroes, fill the region. -/
theorem find_segment_consulted_despite_zero_fill :
    coreReaderTrace (some cxCore) [cxObj] 0 4
        = .ok [⟨true, 0, 4, true⟩]
    ∧ coreReaderRead (some cxCore) [cxObj] 0 4 = .ok [171, 171, 171, 171] :=
  ⟨rfl, rfl⟩

theorem find_segment_consultation_rule_inst :
    (⟨true, 0, 4, true⟩ : IterStep).consulted = true ↔
      ((⟨true, 0, 4, true⟩ : IterStep).snapBytes = 0 ∨
       (⟨true, 0, 4, true⟩ : IterStep).snapZeroes ≠ 0) := by
  have h := find_segment_consultation_rule (some cxCore) [cxObj] 0 4
    [⟨true, 0, 4, true⟩] (by rfl)
  exact h ⟨true, 0, 4, true⟩ (by simp)

theorem findEntry_setEntry (k : Nat) (v : Option Nat) (l : List (Nat × Option Nat)) :
    findEntry k (setEntry k v l) = some v := by
  induction l with
  | nil => simp [setEntry, findEntry]
  | cons kv rest ih =>
    obtain ⟨k2, v2⟩ := kv
    by_cases hk : k2 = k
    · simp [setEntry, findEntry, hk]
    · simp [setEntry, findEntry, hk, ih]

/-- C4 (amended): for a fixed (deterministic) decoder, a repeated call
returns the same raw DIE; the slot is occupied after the first resolution
(holding the decoded value, possibly null); a non-null cached value is
returned without re-decoding, while a null slot re-runs the decoder
(harmlessly, as the result is the same null). -/
theorem offset_to_raw_die_memoized (decode : Nat → Option Nat)
    (u : UnitDieState) (off : Nat) :
    ((offsetToRawDIE decode (offsetToRawDIE decode u off).2 off).1
        = (offsetToRawDIE decode u off).1)
    ∧ (¬(off = 0 ∨ off < u.offset ∨ off ≥ u.end_) →
        findEntry off ((offsetToRawDIE decode u off).2).allEntries
          = some (offsetToRawDIE decode u off).1) := by
  by_cases hg : off = 0 ∨ off < u.offset ∨ off ≥ u.end_
  · constructor
    · simp [offsetToRawDIE, hg]
    · intro hng
      exact absurd hg hng
  · have hguard : ∀ u2 : UnitDieState, u2.offset = u.offset → u2.end_ = u.end_ →
        ¬(off = 0 ∨ off < u2.offset ∨ off ≥ u2.end_) := by
      intro u2 h1 h2
      rw [h1, h2]
      exact hg
    cases hfe : findEntry off u.allEntries with
    | none =>
      have h1 : offsetToRawDIE decode u off
          = (decode off, { u with allEntries := setEntry off (decode off) u.allEntries,
                                  decodeCount := u.decodeCount + 1 }) := by
        simp [offsetToRawDIE, hg, hfe]
      rw [h1]
      have hocc : findEntry off (setEntry off (decode off) u.allEntries)
          = some (decode off) := findEntry_setEntry off (decode off) u.allEntries
      constructor
      · cases hdec : decode off with
        | none => rw [hdec] at hocc; simp [offsetToRawDIE, hg, hocc, hdec]
        | some r => rw [hdec] at hocc; simp [offsetToRawDIE, hg, hocc, hdec]
      · intro _
        exact hocc
    | some v =>
      cases v with
      | some r =>
        have h1 : offsetToRawDIE decode u off = (some r, u) := by
          simp [offsetToRawDIE, hg, hfe]
        rw [h1]
        constructor
        · simp [offsetToRawDIE, hg, hfe]
        · intro _
          exact hfe
      | none =>
        have h1 : offsetToRawDIE decode u off
            = (decode off, { u with allEntries := setEntry off (decode off) u.allEntries,
                                    decodeCount := u.decodeCount + 1 }) := by
          simp [offsetToRawDIE, hg, hfe]
        rw [h1]
        have hocc : findEntry off (setEntry off (decode off) u.allEntries)
            = some (decode off) := findEntry_setEntry off (decode off) u.allEntries
        constructor
        · cases hdec : decode off with
          | none => rw [hdec] at hocc; simp [offsetToRawDIE, hg, hocc, hdec]
          | some r => rw [hdec] at hocc; simp [offsetToRawDIE, hg, hocc, hdec]
        · intro _
          exact hocc

/-- C4 as stated is false on the code: after a first call whose decode yields
null, the slot is occupied (`findEntry … = some none`), yet a second call for
the same offset runs the decoder again (`decodeCount` goes from 1 to 2) —
the occupied null slot does not suppress re-decoding. -/
theorem null_die_slot_redecodes :
    (offsetToRawDIE (fun _ => none) ⟨0x20, 0x100, [], 0⟩ 0x80).2.decodeCount = 1
    ∧ findEntry 0x80 ((offsetToRawDIE (fun _ => none) ⟨0x20, 0x100, [], 0⟩ 0x80).2.allEntries)
        = some none
    ∧ (offsetToRawDIE (fun _ => none)
        ((offsetToRawDIE (fun _ => none) ⟨0x20, 0x100, [], 0⟩ 0x80).2) 0x80).2.decodeCount
        = 2 := by
  decide

theorem offset_to_raw_die_memoized_inst :
    (offsetToRawDIE (fun _ => some 7) (offsetToRawDIE (fun _ => some 7) ⟨0x20, 0x100, [], 0⟩ 0x80).2 0x80).1
      = (offsetToRawDIE (fun _ => some 7) ⟨0x20, 0x100, [], 0⟩ 0x80).1
    ∧ findEntry 0x80 ((offsetToRawDIE (fun _ => some 7) ⟨0x20, 0x100, [], 0⟩ 0x80).2).allEntries
      = some (offsetToRawDIE (fun _ => some 7) ⟨0x20, 0x100, [], 0⟩ 0x80).1 := by
  have h := offset_to_raw_die_memoized (fun _ => some 7) ⟨0x20, 0x100, [], 0⟩ 0x80
  exact ⟨h.1, h.2 (by decide)⟩

/-- C6: `get_registers` succeeds exactly when a CORE/PRSTATUS note with
matching `pr_pid` exists, returning that (first such) note's `pr_reg`; it
fails (NoSuchLwp) exactly when no such note exists. -/
theorem get_regs_spec (notes : List Note) (pid : Int) :
    getRegs notes pid
      = (notes.find? (fun n =>
          decide (n.name = "CORE" ∧ n.ntype = NT_PRSTATUS ∧ n.prst.pr_pid = pid))).map
            (fun n => n.prst.pr_reg)
    ∧ (getRegs notes pid = none ↔
        ∀ n ∈ notes, ¬(n.name = "CORE" ∧ n.ntype = NT_PRSTATUS ∧ n.prst.pr_pid = pid)) := by
  have hfind : getRegs notes pid
      = (notes.find? (fun n =>
          decide (n.name = "CORE" ∧ n.ntype = NT_PRSTATUS ∧ n.prst.pr_pid = pid))).map
            (fun n => n.prst.pr_reg) := by
    induction notes with
    | nil => simp [getRegs]
    | cons n rest ih =>
      by_cases hc : n.name = "CORE" ∧ n.ntype = NT_PRSTATUS ∧ n.prst.pr_pid = pid
      · simp [getRegs, List.find?, hc]
      · simp only [getRegs, List.find?]
        rw [if_neg hc, ih]
        simp [hc]
  refine ⟨hfind, ?_⟩
  rw [hfind]
  simp [List.find?_eq_none]

/-- C7: `get_pid` returns the `pr_pid` of the first CORE/PRSTATUS note, and
-1 when the snapshot has no such note. -/
theorem get_pid_spec (notes : List Note) :
    getPID notes
      = ((notes.find? (fun n => decide (n.name = "CORE" ∧ n.ntype = NT_PRSTATUS))).map
          (fun n => n.prst.pr_pid)).getD (-1)
    ∧ ((∀ n ∈ notes, ¬(n.name = "CORE" ∧ n.ntype = NT_PRSTATUS)) → getPID notes = -1) := by
  have hfind : getPID notes
      = ((notes.find? (fun n => decide (n.name = "CORE" ∧ n.ntype = NT_PRSTATUS))).map
          (fun n => n.prst.pr_pid)).getD (-1) := by
    induction notes with
    | nil => simp [getPID]
    | cons n rest ih =>
      by_cases hc : n.name = "CORE" ∧ n.ntype = NT_PRSTATUS
      · simp [getPID, List.find?, hc]
      · simp only [getPID, List.find?]
        rw [if_neg hc, ih]
        simp [hc]
  refine ⟨hfind, ?_⟩
  intro hnone
  rw [hfind]
  rw [List.find?_eq_none.mpr (by simpa using hnone)]
  rfl

theorem get_regs_spec_s3 :
    getRegs s3notes 1234 = some 7 ∧ getRegs s3notes 9999 = none :=
  ⟨(get_regs_spec s3notes 1234).1.trans (by rfl),
   ((get_regs_spec s3notes 9999).2).mpr (by decide)⟩

theorem get_pid_spec_s3 : getPID s3notes = 1234 :=
  (get_pid_spec s3notes).1.trans (by rfl)

theorem consumeStrings_length (bytes : List Nat) (n : Nat) :
    (consumeStrings bytes n).length = n := by
  induction n generalizing bytes with
  | zero => simp [consumeStrings]
  | succ m ih => simp [consumeStrings, ih]

theorem fileNoteLoop_general (fileNames : List Nat) (tryLoad : List Nat → Nat → Bool)
    (entries : List FileEntry) :
    ∀ st : FNState, st.totalSize < W64 →
      (entries.foldl (fileNoteStep fileNames tryLoad) st).names
          = st.names ++ consumeStrings (fileNames.drop st.stroff) entries.length
      ∧ (entries.foldl (fileNoteStep fileNames tryLoad) st).attempts
          = st.attempts
            ++ attemptsSpec entries (consumeStrings (fileNames.drop st.stroff) entries.length)
      ∧ (entries.foldl (fileNoteStep fileNames tryLoad) st).totalSize
          = (st.totalSize + (entries.map (fun e => sub64 e.end_ e.start)).sum) % W64 := by
  induction entries with
  | nil =>
    intro st hst
    simp [consumeStrings, attemptsSpec, Nat.mod_eq_of_lt hst]
  | cons e rest ih =>
    intro st hst
    have hmod : add64 st.totalSize (sub64 e.end_ e.start) < W64 := by
      have : W64 > 0 := by norm_num [W64]
      exact Nat.mod_lt _ this
    obtain ⟨hn, ha, ht⟩ := ih (fileNoteStep fileNames tryLoad st e) hmod
    have hd : (List.drop st.stroff fileNames).drop
          ((List.takeWhile (fun b => decide (b ≠ 0)) (List.drop st.stroff fileNames)).length + 1)
        = List.drop
            (st.stroff
              + (List.takeWhile (fun b => decide (b ≠ 0)) (List.drop st.stroff fileNames)).length
              + 1) fileNames := by
      rw [List.drop_drop]
      congr 1
    refine ⟨?_, ?_, ?_⟩
    · rw [List.foldl_cons, hn]
      simp only [fileNoteStep, readString]
      simp [List.length_cons, consumeStrings, hd, List.append_assoc, Nat.add_assoc]
    · rw [List.foldl_cons, ha]
      simp only [fileNoteStep, readString]
      simp only [List.length_cons, consumeStrings, hd, attemptsSpec, List.zip_cons_cons,
        List.filterMap_cons]
      by_cases hfo : e.fileOff = 0
      · simp [hfo, attemptsSpec, List.append_assoc, Nat.add_assoc]
      · simp [hfo, attemptsSpec, List.append_assoc, Nat.add_assoc]
    · rw [List.foldl_cons, ht]
      simp only [fileNoteStep, add64]
      rw [Nat.mod_add_mod]
      simp only [List.map_cons, List.sum_cons]
      congr 1
      omega

theorem sub64_eq (a b : Nat) (hba : b ≤ a) (ha : a < W64) : sub64 a b = a - b := by
  unfold sub64
  have hb : b < W64 := lt_of_le_of_lt hba ha
  rw [Nat.mod_eq_of_lt hb]
  have he : a + (W64 - b) = (a - b) + W64 := by omega
  rw [he, Nat.add_mod_right]
  exact Nat.mod_eq_of_lt (by omega)

/-- C5: replaying a FILE note over N announced entries consumes exactly N
NUL-terminated strings in order; every entry with `file_off = 0` produces a
load attempt bound at `load_bias = start` (independently of whether earlier
attempts failed — failures are swallowed); and the accumulated mapped size is
`Σ (end - start)` (with 64-bit wraparound, which is exact for well-formed
entries whose total fits). -/
theorem file_note_replay_spec (entries : List FileEntry) (fileNames : List Nat)
    (tryLoad : List Nat → Nat → Bool) :
    (replayFileNote entries fileNames tryLoad).names
        = consumeStrings fileNames entries.length
    ∧ (replayFileNote entries fileNames tryLoad).names.length = entries.length
    ∧ (replayFileNote entries fileNames tryLoad).attempts
        = attemptsSpec entries (consumeStrings fileNames entries.length)
    ∧ (replayFileNote entries fileNames tryLoad).totalSize
        = (entries.map (fun e => sub64 e.end_ e.start)).sum % W64
    ∧ ((∀ e ∈ entries, e.start ≤ e.end_ ∧ e.end_ < W64) →
        (entries.map (fun e => e.end_ - e.start)).sum < W64 →
        (replayFileNote entries fileNames tryLoad).totalSize
          = (entries.map (fun e => e.end_ - e.start)).sum) := by
  obtain ⟨hn, ha, ht⟩ := fileNoteLoop_general fileNames tryLoad entries
    ⟨0, 0, [], [], []⟩ (by norm_num [W64])
  simp only [List.drop_zero] at hn ha
  have hn2 : (replayFileNote entries fileNames tryLoad).names
      = consumeStrings fileNames entries.length := by
    unfold replayFileNote
    rw [hn]
    simp
  have ha2 : (replayFileNote entries fileNames tryLoad).attempts
      = attemptsSpec entries (consumeStrings fileNames entries.length) := by
    unfold replayFileNote
    rw [ha]
    simp
  have ht2 : (replayFileNote entries fileNames tryLoad).totalSize
      = (entries.map (fun e => sub64 e.end_ e.start)).sum % W64 := by
    unfold replayFileNote
    rw [ht]
    simp
  refine ⟨hn2, ?_, ha2, ht2, ?_⟩
  · rw [hn2, consumeStrings_length]
  · intro hwf hsum
    rw [ht2]
    have hmap : entries.map (fun e => sub64 e.end_ e.start)
        = entries.map (fun e => e.end_ - e.start) := by
      apply List.map_congr_left
      intro e he
      exact sub64_eq e.end_ e.start (hwf e he).1 (hwf e he).2
    rw [hmap]
    exact Nat.mod_eq_of_lt hsum

theorem file_note_replay_spec_inst :
    (replayFileNote fnEntries fnNames fnTryLoad).totalSize = 0x2000
    ∧ (replayFileNote fnEntries fnNames fnTryLoad).names.length = 2
    ∧ (replayFileNote fnEntries fnNames fnTryLoad).attempts
        = [([97, 98], 0x7f0000000000), ([99, 100], 0x1000)] := by
  have h := file_note_replay_spec fnEntries fnNames fnTryLoad
  exact ⟨(h.2.2.2.2 (by decide) (by decide)).trans (by decide),
    h.2.1.trans (by rfl), h.2.2.1.trans (by decide)⟩

/-- C8: the unit-header parse order and widths, for a 32-bit initial length.
Writing `L` for the 4-byte length at `p` and `v` for the 2-byte version at
`p+4`: a unit with `v ≤ 2` gets `dwarf_len = elfBytes` yet reads its abbrev
offset as 4 bytes; `2 < v < 5` reads abbrev offset (width `dwarf_len`) then
`addr_len`; `v ≥ 5` reads a kind byte, kinds 1-4 read `addr_len` then the
abbrev offset, kinds 5-6 additionally an 8-byte id, and any other kind is
the fatal format error. -/
theorem unit_header_parse_spec (b : Nat → Nat) (p al0 elfBytes : Nat)
    (h32 : uintLE b p 4 ≠ 0xffffffff) :
    (uintLE b (p + 4) 2 ≤ 2 →
      mkUnit elfBytes ⟨b, p, al0⟩
        = .ok ⟨p, uintLE b p 4, p + 4 + uintLE b p 4, uintLE b (p + 4) 2, 0,
               byteAt b (p + 10), elfBytes, uintLE b (p + 6) 4, [], p + 11⟩)
    ∧ (2 < uintLE b (p + 4) 2 → uintLE b (p + 4) 2 < 5 →
      mkUnit elfBytes ⟨b, p, al0⟩
        = .ok ⟨p, uintLE b p 4, p + 4 + uintLE b p 4, uintLE b (p + 4) 2, 0,
               byteAt b (p + 10), 4, uintLE b (p + 6) 4, [], p + 11⟩)
    ∧ (5 ≤ uintLE b (p + 4) 2 →
        (byteAt b (p + 6) = 1 ∨ byteAt b (p + 6) = 2 ∨ byteAt b (p + 6) = 3 ∨
         byteAt b (p + 6) = 4) →
      mkUnit elfBytes ⟨b, p, al0⟩
        = .ok ⟨p, uintLE b p 4, p + 4 + uintLE b p 4, uintLE b (p + 4) 2,
               byteAt b (p + 6), byteAt b (p + 7), 4, uintLE b (p + 8) 4, [], p + 12⟩)
    ∧ (5 ≤ uintLE b (p + 4) 2 →
        (byteAt b (p + 6) = 5 ∨ byteAt b (p + 6) = 6) →
      mkUnit elfBytes ⟨b, p, al0⟩
        = .ok ⟨p, uintLE b p 4, p + 4 + uintLE b p 4, uintLE b (p + 4) 2,
               byteAt b (p + 6), byteAt b (p + 7), 4, uintLE b (p + 8) 4,
               (List.range 8).map (fun i => byteAt b (p + 12 + i)), p + 20⟩)
    ∧ (5 ≤ uintLE b (p + 4) 2 →
        ¬(byteAt b (p + 6) = 1 ∨ byteAt b (p + 6) = 2 ∨ byteAt b (p + 6) = 3 ∨
          byteAt b (p + 6) = 4) →
        ¬(byteAt b (p + 6) = 5 ∨ byteAt b (p + 6) = 6) →
      mkUnit elfBytes ⟨b, p, al0⟩ = .error "unknown unit type") := by
  refine ⟨?_, ?_, ?_, ?_, ?_⟩
  · intro hv
    simp only [mkUnit, getlength, getu16, getuint, getu8, getBytes]
    rw [if_neg h32]
    simp only []
    rw [if_pos hv, if_neg (by omega : ¬ uintLE b (p + 4) 2 ≥ 5), if_pos hv]
  · intro hv2 hv5
    simp only [mkUnit, getlength, getu16, getuint, getu8, getBytes]
    rw [if_neg h32]
    simp only []
    rw [if_neg (by omega : ¬ uintLE b (p + 4) 2 ≤ 2),
      if_neg (by omega : ¬ uintLE b (p + 4) 2 ≥ 5),
      if_neg (by omega : ¬ uintLE b (p + 4) 2 ≤ 2)]
  · intro hv hut
    simp only [mkUnit, getlength, getu16, getuint, getu8, getBytes]
    rw [if_neg h32]
    simp only []
    rw [if_neg (by omega : ¬ uintLE b (p + 4) 2 ≤ 2),
      if_pos (by omega : uintLE b (p + 4) 2 ≥ 5)]
    rw [if_pos (by simpa [Nat.add_assoc] using hut)]
  · intro hv hut
    have hne : ¬(byteAt b (p + 6) = 1 ∨ byteAt b (p + 6) = 2 ∨ byteAt b (p + 6) = 3 ∨
        byteAt b (p + 6) = 4) := by
      rcases hut with h | h <;> simp [h]
    simp only [mkUnit, getlength, getu16, getuint, getu8, getBytes]
    rw [if_neg h32]
    simp only []
    rw [if_neg (by omega : ¬ uintLE b (p + 4) 2 ≤ 2),
      if_pos (by omega : uintLE b (p + 4) 2 ≥ 5)]
    rw [show p + 4 + 2 = p + 6 from by omega]
    rw [if_neg hne, if_pos hut]
  · intro hv hne14 hne56
    simp only [mkUnit, getlength, getu16, getuint, getu8, getBytes]
    rw [if_neg h32]
    simp only []
    rw [if_neg (by omega : ¬ uintLE b (p + 4) 2 ≤ 2),
      if_pos (by omega : uintLE b (p + 4) 2 ≥ 5)]
    rw [show p + 4 + 2 = p + 6 from by omega]
    rw [if_neg hne14, if_neg hne56]

theorem unit_header_parse_spec_inst :
    mkUnit 8 ⟨(fun i => [100, 0, 0, 0, 5, 0, 1, 8, 0, 1, 0, 0].getD i 0), 0, 0⟩
      = .ok ⟨0, 100, 104, 5, 1, 8, 4, 256, [], 12⟩ := by
  have h := (unit_header_parse_spec (fun i => [100, 0, 0, 0, 5, 0, 1, 8, 0, 1, 0, 0].getD i 0)
    0 0 8 (by decide)).2.2.1 (by decide) (Or.inl (by decide))
  exact h.trans (by rfl)

theorem scanMatrix_eq_specScan (addr : Nat) :
    ∀ rows, scanMatrix addr rows = specScan addr rows := by
  intro rows
  induction rows with
  | nil => rfl
  | cons r1 rest ih =>
    cases rest with
    | nil => rfl
    | cons r2 rest2 =>
      by_cases hes : r1.end_sequence
      · have h1 : scanMatrix addr (r1 :: r2 :: rest2) = scanMatrix addr (r2 :: rest2) := by
          simp [scanMatrix, hes]
        rw [h1, ih]
        simp [specScan, pairMatches, hes, List.find?, List.zip]
      · by_cases hm : r1.addr ≤ addr ∧ r2.addr > addr
        · have h1 : scanMatrix addr (r1 :: r2 :: rest2) = some r1 := by
            simp [scanMatrix, hes, hm]
          rw [h1]
          have hp : pairMatches addr r1 r2 = true := by
            simp [pairMatches, hes]
            omega
          simp [specScan, List.find?, hp]
        · have h1 : scanMatrix addr (r1 :: r2 :: rest2) = scanMatrix addr (r2 :: rest2) := by
            simp [scanMatrix, hes, hm]
          rw [h1, ih]
          have hp : pairMatches addr r1 r2 = false := by
            simp [pairMatches, hes]
            omega
          simp [specScan, List.find?, hp, List.zip]

theorem scanMatrix_above (addr : Nat) :
    ∀ rows, (∀ r ∈ rows, addr < r.addr) → scanMatrix addr rows = none := by
  intro rows
  induction rows with
  | nil => intro _; rfl
  | cons r1 rest ih =>
    intro hall
    cases rest with
    | nil => rfl
    | cons r2 rest2 =>
      have h1 : addr < r1.addr := hall r1 (by simp)
      have hm : ¬(r1.addr ≤ addr ∧ r2.addr > addr) := by omega
      by_cases hes : r1.end_sequence
      · have he : scanMatrix addr (r1 :: r2 :: rest2) = scanMatrix addr (r2 :: rest2) := by
          simp [scanMatrix, hes]
        rw [he]
        exact ih (fun r hr => hall r (List.mem_cons_of_mem r1 hr))
      · have he : scanMatrix addr (r1 :: r2 :: rest2) = scanMatrix addr (r2 :: rest2) := by
          simp [scanMatrix, hes, hm]
        rw [he]
        exact ih (fun r hr => hall r (List.mem_cons_of_mem r1 hr))

theorem scanMatrix_es_addr (addr : Nat) :
    ∀ rows, List.Pairwise (fun a b => a.addr < b.addr) rows →
      (∃ r ∈ rows, r.end_sequence ∧ r.addr = addr) → scanMatrix addr rows = none := by
  intro rows
  induction rows with
  | nil => intro _ _; rfl
  | cons r1 rest ih =>
    intro hpw hex
    have hpw1 := (List.pairwise_cons.mp hpw).1
    have hpwrest := (List.pairwise_cons.mp hpw).2
    cases rest with
    | nil => rfl
    | cons r2 rest2 =>
      obtain ⟨r, hr, hres, hraddr⟩ := hex
      rcases List.mem_cons.mp hr with hr1 | hrtail
      · -- the end_sequence row is the head: everything after is above addr
        subst hr1
        have he : scanMatrix addr (r :: r2 :: rest2) = scanMatrix addr (r2 :: rest2) := by
          simp [scanMatrix, hres]
        rw [he]
        exact scanMatrix_above addr (r2 :: rest2)
          (fun r2x hr2x => hraddr ▸ hpw1 r2x hr2x)
      · -- the end_sequence row is in the tail
        have hih := ih hpwrest ⟨r, hrtail, hres, hraddr⟩
        by_cases hes : r1.end_sequence
        · have he : scanMatrix addr (r1 :: r2 :: rest2) = scanMatrix addr (r2 :: rest2) := by
            simp [scanMatrix, hes]
          rw [he]
          exact hih
        · have hm : ¬(r1.addr ≤ addr ∧ r2.addr > addr) := by
            rintro ⟨_, h2⟩
            rcases List.mem_cons.mp hrtail with hr2 | hrest2
            · subst hr2
              omega
            · have := (List.pairwise_cons.mp hpwrest).1 r hrest2
              omega
          have he : scanMatrix addr (r1 :: r2 :: rest2) = scanMatrix addr (r2 :: rest2) := by
            simp [scanMatrix, hes, hm]
          rw [he]
          exact hih

/-- C9: `source_from_addr` reports, for an address the root DIE contains,
the first adjacent pair of rows `i`, `i+1` with `i.end_sequence` false and
`i.addr ≤ addr < (i+1).addr`, as `(directory/file, line)` in verbose mode
and just the file name otherwise; a `NO` containment answer yields no match,
and (for a strictly increasing matrix) an address equal to an end_sequence
row's address yields no match. -/
theorem source_from_addr_spec (c : ContainsAddr) (lines : Option LineInfo)
    (verbose : Bool) (addr : Nat) :
    (sourceFromAddr c lines verbose addr
      = if c = .no then none
        else
          match lines with
          | none => none
          | some li =>
            (specScan addr li.matrix).map (fun r =>
              (if verbose then (li.directories.getD r.file.dirindex "") ++ "/" ++ r.file.name
               else r.file.name, r.line)))
    ∧ (c = .no → sourceFromAddr c lines verbose addr = none)
    ∧ (∀ li, lines = some li →
        List.Pairwise (fun a b => a.addr < b.addr) li.matrix →
        (∃ r ∈ li.matrix, r.end_sequence ∧ r.addr = addr) →
        sourceFromAddr c lines verbose addr = none) := by
  refine ⟨?_, ?_, ?_⟩
  · by_cases hc : c = .no
    · simp [sourceFromAddr, hc]
    · rw [if_neg hc]
      cases lines with
      | none => simp [sourceFromAddr, hc]
      | some li =>
        simp only [sourceFromAddr]
        rw [if_neg hc, scanMatrix_eq_specScan]
        cases specScan addr li.matrix with
        | none => rfl
        | some r => rfl
  · intro hc
    simp [sourceFromAddr, hc]
  · intro li hli hpw hex
    subst hli
    have hnone : scanMatrix addr li.matrix = none := scanMatrix_es_addr addr li.matrix hpw hex
    by_cases hc : c = .no
    · simp [sourceFromAddr, hc]
    · simp [sourceFromAddr, hc, hnone]

theorem source_from_addr_spec_s6 :
    sourceFromAddr .yes (some s6li) false 0x1008 = some ("a.c", 10)
    ∧ sourceFromAddr .yes (some s6li) false 0x1018 = some ("a.c", 12)
    ∧ sourceFromAddr .yes (some s6li) false 0x1020 = none := by
  refine ⟨?_, ?_, ?_⟩
  · exact (source_from_addr_spec .yes (some s6li) false 0x1008).1.trans (by rfl)
  · exact (source_from_addr_spec .yes (some s6li) false 0x1018).1.trans (by rfl)
  · exact (source_from_addr_spec .yes (some s6li) false 0x1020).2.2 s6li rfl
      (by decide) ⟨⟨0x1020, 0, true, ⟨"a.c", 0⟩⟩, by decide, by decide, by decide⟩
